import Mathlib

/-!
Verification of the Ai_Book_Translator program: a shallow embedding of its
text parser, retry loop, book aggregator, API-key check and JSON
serialization, together with theorems settling the specification's claims.
-/

namespace BookTranslator

/-! ## Text parser (convert_txt_to_dict) -/

abbrev Block := List Char
abbrev Key := List Char
abbrev ChapterDict := List (Key × List Block)

/-- Whitespace stripped by Python's str.strip (the ASCII whitespace
characters, which cover the manuscript inputs). -/
def pyIsSpace (c : Char) : Bool :=
  c = ' ' || c = '\t' || c = '\n' || c = '\r' || c = '\x0b' || c = '\x0c'

/-- Python str.strip: drop whitespace from both ends. -/
def pyStrip (s : List Char) : List Char :=
  ((s.dropWhile pyIsSpace).reverse.dropWhile pyIsSpace).reverse

/-- Python str.split on the two-character blank-line separator:
leftmost, non-overlapping occurrences. -/
def splitOn2NL : List Char → List Char → List (List Char)
  | [], acc => [acc.reverse]
  | '\n' :: '\n' :: rest, acc => acc.reverse :: splitOn2NL rest []
  | c :: rest, acc => splitOn2NL rest (c :: acc)

/-- The block list built at the top of convert_txt_to_dict: strip the file
content, split on blank lines, strip each piece, keep the nonempty ones. -/
def getBlocks (content : List Char) : List Block :=
  ((splitOn2NL (pyStrip content) []).map pyStrip).filter (fun b => !b.isEmpty)

/-- Python re.match of the section-marker pattern (opening brace, dash, a
nonempty greedy group of non-newline characters, dash, closing brace, end of
string — where the end anchor may also sit just before a single trailing
newline), returning the captured group. -/
def reMarkerMatch (b : List Char) : Option Key :=
  let core :=
    match b.getLast? with
    | some c => if c = '\n' then b.dropLast else b
    | none => b
  if 5 ≤ core.length ∧ core.take 2 = ['\x7b', '-'] ∧
      core.drop (core.length - 2) = ['-', '\x7d'] ∧ '\n' ∉ core then
    some (((core.drop 2).dropLast).dropLast)
  else
    none

/-- chapter.setdefault(number, []).append(block): append to the entry of the
first matching key, or add a fresh entry at the end of the dictionary. -/
def dictAppend : ChapterDict → Key → Block → ChapterDict
  | [], k, v => [(k, [v])]
  | (k', vs) :: rest, k, v =>
    if k' = k then (k', vs ++ [v]) :: rest
    else (k', vs) :: dictAppend rest k v

/-- The main loop of convert_txt_to_dict over the block list: blocks shorter
than 3 characters are skipped, a marker block switches the current section
name, any other block is appended under the current name. -/
def buildChapters : List Block → Key → ChapterDict → ChapterDict
  | [], _, d => d
  | b :: bs, number, d =>
    if b.length < 3 then buildChapters bs number d
    else
      match reMarkerMatch b with
      | some name => buildChapters bs name d
      | none => buildChapters bs number (dictAppend d number b)

/-- convert_txt_to_dict on the file's content (reading the file is modelled
by passing its content): the dictionary starts with an empty "summary" entry
and the current section name starts as "summary". -/
def convert_txt_to_dict (content : List Char) : ChapterDict :=
  buildChapters (getBlocks content) "summary".data [("summary".data, [])]

/-- String-level view of convert_txt_to_dict. -/
def convertTxtToDictStr (s : String) : List (String × List String) :=
  (convert_txt_to_dict s.data).map (fun p => (String.mk p.1, p.2.map String.mk))

/-! Derived views of the block list, used to state the claims. -/

/-- Whether the loop keeps a block as a paragraph. -/
def keptBlock (b : Block) : Bool :=
  if b.length < 3 then false else (reMarkerMatch b).isNone

/-- The blocks the loop keeps as paragraphs, in source order. -/
def keptBlocks (bs : List Block) : List Block := bs.filter keptBlock

/-- The marker names the loop acts on, in source order, with multiplicity. -/
def markerNames (bs : List Block) : List Key :=
  bs.filterMap (fun b => if b.length < 3 then none else reMarkerMatch b)

/-- The section name each kept block is filed under, in source order. -/
def sectionSeq : List Block → Key → List Key
  | [], _ => []
  | b :: bs, number =>
    if b.length < 3 then sectionSeq bs number
    else
      match reMarkerMatch b with
      | some name => sectionSeq bs name
      | none => number :: sectionSeq bs number

def keysOf (d : ChapterDict) : List Key := d.map Prod.fst

def valsJoin (d : ChapterDict) : List Block := (d.map Prod.snd).flatten

/-- First-occurrence insertion: ks extended by those members of xs not
already present, in order of first appearance. -/
def insertNewKeys : List Key → List Key → List Key
  | ks, [] => ks
  | ks, x :: xs => if x ∈ ks then insertNewKeys ks xs else insertNewKeys (ks ++ [x]) xs

/-- Python dictionary lookup on the association-list model. -/
def lookupKey : ChapterDict → Key → Option (List Block)
  | [], _ => none
  | (k', vs) :: rest, k => if k' = k then some vs else lookupKey rest k

/-- The kept blocks preceding the first marker block. -/
def preMarkerKept (bs : List Block) : List Block :=
  keptBlocks (bs.takeWhile (fun b => b.length < 3 || (reMarkerMatch b).isNone))

/-! ## Book aggregator -/

structure Paragraph where
  original : String
  translated : String
deriving DecidableEq

structure Chapter where
  title : String
  paragraphs : List Paragraph
deriving DecidableEq

structure Book where
  title : String
  content : List Chapter
deriving DecidableEq

/-- Book.add_chapter: append a chapter record with the given title and an
empty paragraph list. -/
def Book.add_chapter (b : Book) (title : String) : Book :=
  { b with content := b.content ++ [{ title := title, paragraphs := [] }] }

/-- The in-place append to the paragraph list of the last chapter
(content[-1]), rendered functionally. -/
def appendToLast : List Chapter → Paragraph → List Chapter
  | [], _ => []
  | [c], p => [{ c with paragraphs := c.paragraphs ++ [p] }]
  | c :: c' :: rest, p => c :: appendToLast (c' :: rest) p

/-- Book.add_paragraph_to_last_chapter: raising ValueError is modelled by
Except.error carrying the message, and the successful branch returns the
updated book. -/
def Book.add_paragraph_to_last_chapter (b : Book) (original translated : String) :
    Except String Book :=
  if b.content.isEmpty then
    Except.error "Cannot add paragraph: No chapter has been added to the book yet."
  else
    Except.ok { b with content := appendToLast b.content ⟨original, translated⟩ }

/-! ## Retry loop from main -/

/-- The retry while-loop of main, by remaining budget: the underlying
translation call is an oracle from the attempt index (the value of the
retries counter at call time) to none (the call raised) or some translated
text. Returns the resulting translation together with the number of attempts
made and the number of 2-second sleeps taken; when the budget runs out the
while-loop's else-branch substitutes the fallback. The function is total, so
no exception escapes the loop. -/
def retryGo (call : Nat → Option String) (fallback : String) :
    Nat → Nat → String × Nat × Nat
  | _, 0 => (fallback, 0, 0)
  | retries, remaining + 1 =>
    match call retries with
    | some t => (t, 1, 0)
    | none =>
      let r := retryGo call fallback (retries + 1) remaining
      (r.1, r.2.1 + 1, r.2.2 + 1)

def max_retries : Nat := 5

/-- The paragraph retry loop of main, with its fallback sentinel. -/
def retryTranslateBlock (call : Nat → Option String) : String × Nat × Nat :=
  retryGo call "[Translation Failed]" 0 max_retries

/-- The heading retry loop of main, with its fallback sentinel built from
the original heading. -/
def retryTranslateHeading (call : Nat → Option String) (index : String) :
    String × Nat × Nat :=
  retryGo call ("[Translation Failed for: " ++ index ++ "]") 0 max_retries

/-! ## API key check -/

/-- check_api_key: the probe (configure, build the test model, generate the
test response and read its text) is modelled as one Except value, error e
when any step raises and ok t when the response carries text t. The source
returns True exactly when the probe raised, False when it returned text. -/
def check_api_key (probe : Except String String) : Bool :=
  match probe with
  | Except.ok _ => false
  | Except.error _ => true

/-! ## JSON serialization (save_book_to_json) -/

/-- The JSON documents the program writes, as trees; json.dump's text layer
is a faithful rendering of this tree. -/
inductive Json where
  | str : String → Json
  | arr : List Json → Json
  | obj : List (String × Json) → Json

def Paragraph.toJson (p : Paragraph) : Json :=
  Json.obj [("original", Json.str p.original), ("translated", Json.str p.translated)]

def Chapter.toJson (c : Chapter) : Json :=
  Json.obj [("title", Json.str c.title),
            ("paragraphs", Json.arr (c.paragraphs.map Paragraph.toJson))]

/-- save_book_to_json: the JSON document written to the structured-book
file, json.dump({'title': book.title, 'content': book.content}). -/
def save_book_to_json (b : Book) : Json :=
  Json.obj [("title", Json.str b.title),
            ("content", Json.arr (b.content.map Chapter.toJson))]

/-! A reader of the structured-book document, as json.load followed by field
access would see it. -/

def jsonField : List (String × Json) → String → Option Json
  | [], _ => none
  | (k, v) :: rest, f => if k = f then some v else jsonField rest f

def Json.asStr : Json → Option String
  | Json.str s => some s
  | _ => none

def decodeList {α : Type} (f : Json → Option α) : List Json → Option (List α)
  | [] => some []
  | j :: js =>
    match f j, decodeList f js with
    | some a, some as => some (a :: as)
    | _, _ => none

def decodeParagraph : Json → Option Paragraph
  | Json.obj fs =>
    match jsonField fs "original", jsonField fs "translated" with
    | some (Json.str o), some (Json.str t) => some ⟨o, t⟩
    | _, _ => none
  | _ => none

def decodeChapter : Json → Option Chapter
  | Json.obj fs =>
    match jsonField fs "title", jsonField fs "paragraphs" with
    | some (Json.str t), some (Json.arr ps) =>
      match decodeList decodeParagraph ps with
      | some paras => some ⟨t, paras⟩
      | none => none
    | _, _ => none
  | _ => none

def decodeBook : Json → Option Book
  | Json.obj fs =>
    match jsonField fs "title", jsonField fs "content" with
    | some (Json.str t), some (Json.arr cs) =>
      match decodeList decodeChapter cs with
      | some chs => some ⟨t, chs⟩
      | none => none
    | _, _ => none
  | _ => none

/-! ## Lemmas about the dictionary operations -/

@[simp] theorem keysOf_nil : keysOf [] = [] := rfl

@[simp] theorem keysOf_cons (p : Key × List Block) (d : ChapterDict) :
    keysOf (p :: d) = p.1 :: keysOf d := rfl

@[simp] theorem keysOf_append (d₁ d₂ : ChapterDict) :
    keysOf (d₁ ++ d₂) = keysOf d₁ ++ keysOf d₂ := by
  simp [keysOf]

@[simp] theorem valsJoin_nil : valsJoin [] = [] := rfl

@[simp] theorem valsJoin_cons (p : Key × List Block) (d : ChapterDict) :
    valsJoin (p :: d) = p.2 ++ valsJoin d := by
  simp [valsJoin]

@[simp] theorem valsJoin_append (d₁ d₂ : ChapterDict) :
    valsJoin (d₁ ++ d₂) = valsJoin d₁ ++ valsJoin d₂ := by
  simp [valsJoin]

theorem keysOf_dictAppend (d : ChapterDict) (k : Key) (v : Block) :
    keysOf (dictAppend d k v) =
      if k ∈ keysOf d then keysOf d else keysOf d ++ [k] := by
  induction d with
  | nil => simp [dictAppend]
  | cons p rest ih =>
    obtain ⟨k', vs⟩ := p
    by_cases hk : k' = k
    · subst hk
      simp [dictAppend]
    · have hne : ¬ k = k' := fun h => hk h.symm
      simp only [dictAppend, if_neg hk, keysOf_cons, ih, List.mem_cons]
      by_cases hm : k ∈ keysOf rest
      · simp [hm]
      · simp [hm, hne]

theorem dictAppend_not_mem (d : ChapterDict) (k : Key) (v : Block)
    (h : k ∉ keysOf d) : dictAppend d k v = d ++ [(k, [v])] := by
  induction d with
  | nil => simp [dictAppend]
  | cons p rest ih =>
    obtain ⟨k', vs⟩ := p
    simp only [keysOf_cons, List.mem_cons] at h
    push_neg at h
    have hk : ¬ k' = k := fun hh => h.1 hh.symm
    simp [dictAppend, hk, ih h.2]

theorem dictAppend_last (d : ChapterDict) (k : Key) (v : Block)
    (hnd : (keysOf d).Nodup) (hl : (keysOf d).getLast? = some k) :
    valsJoin (dictAppend d k v) = valsJoin d ++ [v] ∧
      keysOf (dictAppend d k v) = keysOf d := by
  induction d with
  | nil => simp at hl
  | cons p rest ih =>
    obtain ⟨k', vs⟩ := p
    by_cases hk : k' = k
    · subst hk
      cases rest with
      | nil => simp [dictAppend]
      | cons q rs =>
        exfalso
        have hgl : (keysOf (q :: rs)).getLast? = some k' := by
          simpa [List.getLast?_cons_cons] using hl
        obtain ⟨hne, heq⟩ := List.mem_getLast?_eq_getLast hgl
        have hmem : k' ∈ keysOf (q :: rs) := heq ▸ List.getLast_mem hne
        simp only [keysOf_cons, List.nodup_cons] at hnd
        exact hnd.1 hmem
    · have hl' : (keysOf rest).getLast? = some k := by
        cases rest with
        | nil =>
          exfalso
          simp only [keysOf_cons, keysOf_nil] at hl
          simp at hl
          exact hk hl
        | cons q rs => simpa [List.getLast?_cons_cons] using hl
      simp only [keysOf_cons, List.nodup_cons] at hnd
      obtain ⟨hvj, hks⟩ := ih hnd.2 hl'
      constructor
      · simp [dictAppend, hk, hvj]
      · simp [dictAppend, hk, hks]

/-! Unfolding lemmas for the loop and the derived views, by the three cases
of the loop body. -/

theorem buildChapters_cons_short (b : Block) (bs : List Block) (number : Key)
    (d : ChapterDict) (hb : b.length < 3) :
    buildChapters (b :: bs) number d = buildChapters bs number d := by
  simp [buildChapters, hb]

theorem buildChapters_cons_marker (b : Block) (bs : List Block) (number name : Key)
    (d : ChapterDict) (hb : ¬ b.length < 3) (hm : reMarkerMatch b = some name) :
    buildChapters (b :: bs) number d = buildChapters bs name d := by
  simp [buildChapters, hb, hm]

theorem buildChapters_cons_kept (b : Block) (bs : List Block) (number : Key)
    (d : ChapterDict) (hb : ¬ b.length < 3) (hm : reMarkerMatch b = none) :
    buildChapters (b :: bs) number d =
      buildChapters bs number (dictAppend d number b) := by
  simp [buildChapters, hb, hm]

theorem keptBlocks_cons_short (b : Block) (bs : List Block) (hb : b.length < 3) :
    keptBlocks (b :: bs) = keptBlocks bs := by
  simp [keptBlocks, List.filter_cons, keptBlock, hb]

theorem keptBlocks_cons_marker (b : Block) (bs : List Block) (name : Key)
    (hb : ¬ b.length < 3) (hm : reMarkerMatch b = some name) :
    keptBlocks (b :: bs) = keptBlocks bs := by
  simp [keptBlocks, List.filter_cons, keptBlock, hb, hm]

theorem keptBlocks_cons_kept (b : Block) (bs : List Block)
    (hb : ¬ b.length < 3) (hm : reMarkerMatch b = none) :
    keptBlocks (b :: bs) = b :: keptBlocks bs := by
  simp [keptBlocks, List.filter_cons, keptBlock, hb, hm]

theorem markerNames_cons_short (b : Block) (bs : List Block) (hb : b.length < 3) :
    markerNames (b :: bs) = markerNames bs := by
  simp [markerNames, List.filterMap_cons, hb]

theorem markerNames_cons_marker (b : Block) (bs : List Block) (name : Key)
    (hb : ¬ b.length < 3) (hm : reMarkerMatch b = some name) :
    markerNames (b :: bs) = name :: markerNames bs := by
  simp [markerNames, List.filterMap_cons, hb, hm]

theorem markerNames_cons_kept (b : Block) (bs : List Block)
    (hb : ¬ b.length < 3) (hm : reMarkerMatch b = none) :
    markerNames (b :: bs) = markerNames bs := by
  simp [markerNames, List.filterMap_cons, hb, hm]

theorem sectionSeq_cons_short (b : Block) (bs : List Block) (number : Key)
    (hb : b.length < 3) :
    sectionSeq (b :: bs) number = sectionSeq bs number := by
  simp [sectionSeq, hb]

theorem sectionSeq_cons_marker (b : Block) (bs : List Block) (number name : Key)
    (hb : ¬ b.length < 3) (hm : reMarkerMatch b = some name) :
    sectionSeq (b :: bs) number = sectionSeq bs name := by
  simp [sectionSeq, hb, hm]

theorem sectionSeq_cons_kept (b : Block) (bs : List Block) (number : Key)
    (hb : ¬ b.length < 3) (hm : reMarkerMatch b = none) :
    sectionSeq (b :: bs) number = number :: sectionSeq bs number := by
  simp [sectionSeq, hb, hm]

theorem preMarkerKept_cons_short (b : Block) (bs : List Block) (hb : b.length < 3) :
    preMarkerKept (b :: bs) = preMarkerKept bs := by
  simp [preMarkerKept, List.takeWhile_cons, hb, keptBlocks, List.filter_cons,
    keptBlock]

theorem preMarkerKept_cons_marker (b : Block) (bs : List Block) (name : Key)
    (hb : ¬ b.length < 3) (hm : reMarkerMatch b = some name) :
    preMarkerKept (b :: bs) = [] := by
  simp [preMarkerKept, List.takeWhile_cons, hb, hm, keptBlocks]

theorem preMarkerKept_cons_kept (b : Block) (bs : List Block)
    (hb : ¬ b.length < 3) (hm : reMarkerMatch b = none) :
    preMarkerKept (b :: bs) = b :: preMarkerKept bs := by
  simp [preMarkerKept, List.takeWhile_cons, hb, hm, keptBlocks,
    List.filter_cons, keptBlock]

/-! Lemmas about insertNewKeys. -/

theorem mem_insertNewKeys (xs ks : List Key) (k : Key) :
    k ∈ insertNewKeys ks xs ↔ k ∈ ks ∨ k ∈ xs := by
  induction xs generalizing ks with
  | nil => simp [insertNewKeys]
  | cons x xs ih =>
    by_cases hx : x ∈ ks
    · simp only [insertNewKeys, if_pos hx, ih, List.mem_cons]
      constructor
      · rintro (h | h)
        · exact Or.inl h
        · exact Or.inr (Or.inr h)
      · rintro (h | h | h)
        · exact Or.inl h
        · exact Or.inl (h ▸ hx)
        · exact Or.inr h
    · simp only [insertNewKeys, if_neg hx, ih, List.mem_append, List.mem_cons,
        List.mem_singleton]
      tauto

theorem insertNewKeys_nodup (xs ks : List Key) (h : ks.Nodup) :
    (insertNewKeys ks xs).Nodup := by
  induction xs generalizing ks with
  | nil => exact h
  | cons x xs ih =>
    by_cases hx : x ∈ ks
    · simpa [insertNewKeys, if_pos hx] using ih ks h
    · refine ?_
      have hnd : (ks ++ [x]).Nodup := by
        simp [List.nodup_append, h, hx]
      simpa [insertNewKeys, if_neg hx] using ih (ks ++ [x]) hnd

theorem insertNewKeys_extends (xs ks : List Key) :
    ∃ ext, insertNewKeys ks xs = ks ++ ext := by
  induction xs generalizing ks with
  | nil => exact ⟨[], by simp [insertNewKeys]⟩
  | cons x xs ih =>
    by_cases hx : x ∈ ks
    · simpa [insertNewKeys, if_pos hx] using ih ks
    · obtain ⟨ext, hext⟩ := ih (ks ++ [x])
      exact ⟨x :: ext, by simp [insertNewKeys, if_neg hx, hext]⟩

/-- The keys of the final dictionary: the starting keys extended, in order of
first appearance, by the section names that receive a kept block. -/
theorem keysOf_buildChapters (bs : List Block) (number : Key) (d : ChapterDict) :
    keysOf (buildChapters bs number d) = insertNewKeys (keysOf d) (sectionSeq bs number) := by
  induction bs generalizing number d with
  | nil => simp [buildChapters, sectionSeq, insertNewKeys]
  | cons b bs ih =>
    by_cases hb : b.length < 3
    · rw [buildChapters_cons_short b bs number d hb, sectionSeq_cons_short b bs number hb]
      exact ih number d
    · cases hm : reMarkerMatch b with
      | some name =>
        rw [buildChapters_cons_marker b bs number name d hb hm,
          sectionSeq_cons_marker b bs number name hb hm]
        exact ih name d
      | none =>
        rw [buildChapters_cons_kept b bs number d hb hm,
          sectionSeq_cons_kept b bs number hb hm]
        rw [ih number (dictAppend d number b)]
        rw [keysOf_dictAppend]
        by_cases hmem : number ∈ keysOf d
        · simp [insertNewKeys, hmem]
        · simp [insertNewKeys, hmem]

/-- Core invariant for reconstruction: when the upcoming marker names are
pairwise distinct and avoid both the current keys and the current section
name, and the current name is absent or sits last among pairwise-distinct
keys, the loop appends the kept blocks in source order. -/
theorem valsJoin_buildChapters (bs : List Block) (number : Key) (d : ChapterDict)
    (hnod : (markerNames bs).Nodup)
    (hfresh : ∀ m ∈ markerNames bs, m ∉ keysOf d ∧ m ≠ number)
    (hkeys : (keysOf d).Nodup)
    (hlast : number ∉ keysOf d ∨ (keysOf d).getLast? = some number) :
    valsJoin (buildChapters bs number d) = valsJoin d ++ keptBlocks bs := by
  induction bs generalizing number d with
  | nil => simp [buildChapters, keptBlocks]
  | cons b bs ih =>
    by_cases hb : b.length < 3
    · rw [buildChapters_cons_short _ _ _ _ hb, keptBlocks_cons_short _ _ hb]
      rw [markerNames_cons_short _ _ hb] at hnod hfresh
      exact ih number d hnod hfresh hkeys hlast
    · cases hm : reMarkerMatch b with
      | some name =>
        rw [buildChapters_cons_marker _ _ _ _ _ hb hm,
          keptBlocks_cons_marker _ _ _ hb hm]
        rw [markerNames_cons_marker _ _ _ hb hm] at hnod hfresh
        have hnod' := List.nodup_cons.mp hnod
        refine ih name d hnod'.2 ?_ hkeys
          (Or.inl (hfresh name (List.mem_cons_self _ _)).1)
        intro m hmem
        refine ⟨(hfresh m (List.mem_cons_of_mem _ hmem)).1, ?_⟩
        intro hEq
        exact hnod'.1 (hEq ▸ hmem)
      | none =>
        rw [buildChapters_cons_kept _ _ _ _ hb hm, keptBlocks_cons_kept _ _ hb hm]
        rw [markerNames_cons_kept _ _ hb hm] at hnod hfresh
        rcases hlast with hnot | hlast
        · rw [dictAppend_not_mem d number b hnot]
          have hkeys' : (keysOf (d ++ [(number, [b])])).Nodup := by
            simp [List.nodup_append, hkeys, hnot]
          have hfresh' : ∀ m ∈ markerNames bs,
              m ∉ keysOf (d ++ [(number, [b])]) ∧ m ≠ number := by
            intro m hmem
            obtain ⟨h1, h2⟩ := hfresh m hmem
            refine ⟨?_, h2⟩
            simp [h1, h2]
          have hlast' : number ∉ keysOf (d ++ [(number, [b])]) ∨
              (keysOf (d ++ [(number, [b])])).getLast? = some number := by
            right
            simp
          have := ih number (d ++ [(number, [b])]) hnod hfresh' hkeys' hlast'
          rw [this]
          simp
        · obtain ⟨hvj, hks⟩ := dictAppend_last d number b hkeys hlast
          have hfresh' : ∀ m ∈ markerNames bs,
              m ∉ keysOf (dictAppend d number b) ∧ m ≠ number := by
            intro m hmem
            obtain ⟨h1, h2⟩ := hfresh m hmem
            exact ⟨hks ▸ h1, h2⟩
          have := ih number (dictAppend d number b) hnod hfresh'
            (hks ▸ hkeys) (Or.inr (hks ▸ hlast))
          rw [this, hvj]
          simp

/-! Lemmas about lookupKey through the loop. -/

theorem lookupKey_dictAppend (d : ChapterDict) (k k' : Key) (v : Block)
    (vs : List Block) (h : lookupKey d k = some vs) :
    lookupKey (dictAppend d k' v) k =
      some (if k' = k then vs ++ [v] else vs) := by
  induction d with
  | nil => simp [lookupKey] at h
  | cons p rest ih =>
    obtain ⟨k0, vs0⟩ := p
    by_cases h0 : k0 = k'
    · simp only [dictAppend, if_pos h0]
      by_cases hk : k0 = k
      · have hvs : vs0 = vs := by
          simpa [lookupKey, hk] using h
        have hk' : k' = k := h0 ▸ hk
        simp [lookupKey, hk, hk', hvs]
      · have hk' : ¬ k' = k := fun hh => hk (h0.symm ▸ hh : k0 = k)
        have h' : lookupKey rest k = some vs := by
          simpa [lookupKey, hk] using h
        simp [lookupKey, hk, hk', h']
    · simp only [dictAppend, if_neg h0]
      by_cases hk : k0 = k
      · have hvs : vs0 = vs := by
          simpa [lookupKey, hk] using h
        have hk' : ¬ k' = k := fun hh => h0 (hk.trans hh.symm)
        simp [lookupKey, hk, hk', hvs]
      · have h' : lookupKey rest k = some vs := by
          simpa [lookupKey, hk] using h
        simp [lookupKey, hk, ih h']

theorem lookupKey_buildChapters_mono (bs : List Block) (number k : Key)
    (d : ChapterDict) (vs : List Block) (h : lookupKey d k = some vs) :
    ∃ ext, lookupKey (buildChapters bs number d) k = some (vs ++ ext) := by
  induction bs generalizing number d vs with
  | nil => exact ⟨[], by simpa [buildChapters] using h⟩
  | cons b bs ih =>
    by_cases hb : b.length < 3
    · rw [buildChapters_cons_short _ _ _ _ hb]
      exact ih number d vs h
    · cases hm : reMarkerMatch b with
      | some name =>
        rw [buildChapters_cons_marker _ _ _ _ _ hb hm]
        exact ih name d vs h
      | none =>
        rw [buildChapters_cons_kept _ _ _ _ hb hm]
        have h' := lookupKey_dictAppend d k number b vs h
        by_cases he : number = k
        · rw [if_pos he] at h'
          obtain ⟨ext, hext⟩ := ih number (dictAppend d number b) (vs ++ [b]) h'
          exact ⟨b :: ext, by simpa using hext⟩
        · rw [if_neg he] at h'
          exact ih number (dictAppend d number b) vs h'

/-- Processing with the current name at the head entry: that entry collects
every kept block up to the first marker, as a prefix of its final value. -/
theorem lookupKey_buildChapters_head (bs : List Block) (k : Key)
    (vs : List Block) (rest : ChapterDict) :
    ∃ ext, lookupKey (buildChapters bs k ((k, vs) :: rest)) k =
      some (vs ++ preMarkerKept bs ++ ext) := by
  induction bs generalizing vs with
  | nil =>
    refine ⟨[], ?_⟩
    simp [buildChapters, preMarkerKept, keptBlocks, lookupKey]
  | cons b bs ih =>
    by_cases hb : b.length < 3
    · rw [buildChapters_cons_short _ _ _ _ hb, preMarkerKept_cons_short _ _ hb]
      exact ih vs
    · cases hm : reMarkerMatch b with
      | some name =>
        rw [buildChapters_cons_marker _ _ _ _ _ hb hm,
          preMarkerKept_cons_marker _ _ _ hb hm]
        have hl : lookupKey ((k, vs) :: rest) k = some vs := by
          simp [lookupKey]
        obtain ⟨ext, hext⟩ := lookupKey_buildChapters_mono bs name k _ vs hl
        exact ⟨ext, by simpa using hext⟩
      | none =>
        rw [buildChapters_cons_kept _ _ _ _ hb hm, preMarkerKept_cons_kept _ _ hb hm]
        have hd : dictAppend ((k, vs) :: rest) k b = (k, vs ++ [b]) :: rest := by
          simp [dictAppend]
        rw [hd]
        obtain ⟨ext, hext⟩ := ih (vs ++ [b])
        exact ⟨ext, by simpa [List.append_assoc] using hext⟩

/-! Every entry the loop creates or touches carries a nonempty value. -/

theorem mem_dictAppend (d : ChapterDict) (k : Key) (v : Block)
    (p : Key × List Block) (h : p ∈ dictAppend d k v) : p ∈ d ∨ p.2 ≠ [] := by
  induction d with
  | nil =>
    simp only [dictAppend, List.mem_singleton] at h
    right
    simp [h]
  | cons q rest ih =>
    obtain ⟨k0, vs0⟩ := q
    by_cases h0 : k0 = k
    · simp only [dictAppend, if_pos h0, List.mem_cons] at h
      rcases h with h | h
      · right
        simp [h]
      · exact Or.inl (List.mem_cons_of_mem _ h)
    · simp only [dictAppend, if_neg h0, List.mem_cons] at h
      rcases h with h | h
      · exact Or.inl (h ▸ List.mem_cons_self _ _)
      · rcases ih h with h' | h'
        · exact Or.inl (List.mem_cons_of_mem _ h')
        · exact Or.inr h'

theorem mem_buildChapters (bs : List Block) (number : Key) (d : ChapterDict)
    (p : Key × List Block) (h : p ∈ buildChapters bs number d) :
    p ∈ d ∨ p.2 ≠ [] := by
  induction bs generalizing number d with
  | nil => exact Or.inl (by simpa [buildChapters] using h)
  | cons b bs ih =>
    by_cases hb : b.length < 3
    · rw [buildChapters_cons_short _ _ _ _ hb] at h
      exact ih number d h
    · cases hm : reMarkerMatch b with
      | some name =>
        rw [buildChapters_cons_marker _ _ _ _ _ hb hm] at h
        exact ih name d h
      | none =>
        rw [buildChapters_cons_kept _ _ _ _ hb hm] at h
        rcases ih number (dictAppend d number b) h with h' | h'
        · exact mem_dictAppend d number b p h'
        · exact Or.inr h'

/-! ## Lemmas about the aggregator -/

theorem appendToLast_concat (cs : List Chapter) (c : Chapter) (p : Paragraph) :
    appendToLast (cs ++ [c]) p =
      cs ++ [{ c with paragraphs := c.paragraphs ++ [p] }] := by
  induction cs with
  | nil => simp [appendToLast]
  | cons a cs ih =>
    cases cs with
    | nil => simp [appendToLast]
    | cons b cs' =>
      show a :: appendToLast ((b :: cs') ++ [c]) p =
        (a :: b :: cs') ++ [{ c with paragraphs := c.paragraphs ++ [p] }]
      rw [ih]
      rfl

/-! ## Lemmas about the retry loop -/

theorem retryGo_all_fail (call : Nat → Option String) (fallback : String)
    (remaining : Nat) :
    ∀ retries, (∀ i, retries ≤ i → i < retries + remaining → call i = none) →
      retryGo call fallback retries remaining = (fallback, remaining, remaining) := by
  induction remaining with
  | zero => intro retries _; rfl
  | succ n ih =>
    intro retries h
    have hc : call retries = none := h retries (Nat.le_refl _) (by omega)
    simp only [retryGo, hc]
    rw [ih (retries + 1) (fun i h1 h2 => h i (by omega) (by omega))]

theorem retryGo_succeeds (call : Nat → Option String) (fallback : String)
    (t : String) (k : Nat) :
    ∀ remaining retries, k < remaining →
      (∀ i, i < k → call (retries + i) = none) →
      call (retries + k) = some t →
      retryGo call fallback retries remaining = (t, k + 1, k) := by
  induction k with
  | zero =>
    intro remaining retries hk _ hs
    obtain ⟨m, rfl⟩ : ∃ m, remaining = m + 1 :=
      ⟨remaining - 1, by omega⟩
    have hs' : call retries = some t := by simpa using hs
    simp [retryGo, hs']
  | succ k ih =>
    intro remaining retries hk hfail hs
    obtain ⟨m, rfl⟩ : ∃ m, remaining = m + 1 :=
      ⟨remaining - 1, by omega⟩
    have h0 : call retries = none := by
      simpa using hfail 0 (Nat.succ_pos _)
    simp only [retryGo, h0]
    have hfail' : ∀ i, i < k → call (retries + 1 + i) = none := by
      intro i hi
      have := hfail (i + 1) (by omega)
      simpa [Nat.add_assoc, Nat.add_comm 1 i] using this
    have hs' : call (retries + 1 + k) = some t := by
      have : retries + 1 + k = retries + (k + 1) := by omega
      rw [this]
      exact hs
    rw [ih m (retries + 1) (by omega) hfail' hs']

/-! ## Lemmas about JSON decoding -/

theorem decodeList_map {α : Type} (f : Json → Option α) (g : α → Json)
    (l : List α) (h : ∀ a ∈ l, f (g a) = some a) :
    decodeList f (l.map g) = some l := by
  induction l with
  | nil => rfl
  | cons a l ih =>
    simp only [List.map_cons, decodeList]
    rw [h a (List.mem_cons_self _ _), ih (fun a ha => h a (List.mem_cons_of_mem _ ha))]

theorem decodeParagraph_toJson (p : Paragraph) :
    decodeParagraph (Paragraph.toJson p) = some p := rfl

theorem decodeChapter_toJson (c : Chapter) :
    decodeChapter (Chapter.toJson c) = some c := by
  have h := decodeList_map decodeParagraph Paragraph.toJson c.paragraphs
    (fun p _ => decodeParagraph_toJson p)
  simp [decodeChapter, Chapter.toJson, jsonField, h]

theorem decodeBook_save (b : Book) :
    decodeBook (save_book_to_json b) = some b := by
  have h := decodeList_map decodeChapter Chapter.toJson b.content
    (fun c _ => decodeChapter_toJson c)
  simp [decodeBook, save_book_to_json, jsonField, h]

/-- Successful branch of add_paragraph_to_last_chapter, shared by the claims
about the aggregator. -/
theorem add_paragraph_to_last_chapter_ok (b : Book) (o t : String)
    (cs : List Chapter) (c : Chapter) (h : b.content = cs ++ [c]) :
    b.add_paragraph_to_last_chapter o t =
      Except.ok { b with content :=
        cs ++ [{ c with paragraphs := c.paragraphs ++ [⟨o, t⟩] }] } := by
  have hne : b.content.isEmpty = false := by simp [h]
  simp [Book.add_paragraph_to_last_chapter, hne, h, appendToLast_concat]

/-! ## The claims -/

/-- C1: a translation unit whose underlying call raises on every attempt
makes exactly 5 attempts (with a 2-second sleep after each failure), then
takes the sentinel value — "[Translation Failed]" for a paragraph,
"[Translation Failed for: <original>]" for a heading — and, the loop being a
total function, lets no exception propagate past it. The triple records the
result, the attempts made and the sleeps taken. -/
theorem retry_exhaustion_yields_sentinel (call : Nat → Option String)
    (index : String) (h : ∀ i, i < 5 → call i = none) :
    retryTranslateBlock call = ("[Translation Failed]", 5, 5) ∧
      retryTranslateHeading call index =
        ("[Translation Failed for: " ++ index ++ "]", 5, 5) := by
  constructor
  · exact retryGo_all_fail call _ 5 0 (fun i h1 h2 => h i (by omega))
  · exact retryGo_all_fail call _ 5 0 (fun i h1 h2 => h i (by omega))

/-- Witness for C1 at the constantly raising call. -/
theorem retry_exhaustion_yields_sentinel_witness :
    (∀ i, i < 5 → (fun _ => (none : Option String)) i = none) ∧
      retryTranslateBlock (fun _ => none) = ("[Translation Failed]", 5, 5) ∧
      retryTranslateHeading (fun _ => none) "Intro" =
        ("[Translation Failed for: Intro]", 5, 5) :=
  ⟨fun _ _ => rfl,
   (retry_exhaustion_yields_sentinel (fun _ => none) "Intro" (fun _ _ => rfl)).1,
   (retry_exhaustion_yields_sentinel (fun _ => none) "Intro" (fun _ _ => rfl)).2⟩

/-- C2: parsing the given concrete input yields exactly the mapping
summary ↦ [], Intro ↦ [P1., P2.], Ch1 ↦ [P3.], with the keys in that
order. -/
theorem parse_concrete_example :
    convertTxtToDictStr "\x7b-Intro-\x7d\n\nP1.\n\nP2.\n\n\x7b-Ch1-\x7d\n\nP3." =
      [("summary", []), ("Intro", ["P1.", "P2."]), ("Ch1", ["P3."])] := by
  decide

/-- C3: for well-formed input — formalized as: the marker names are pairwise
distinct and none equals the reserved default name "summary" — concatenating
the parse result's paragraph lists in key order reconstructs, in the source
order, exactly the source block sequence minus empty blocks, blocks shorter
than 3 characters and marker blocks; re-joining that common sequence with
blank lines therefore reconstructs the same text on both sides. -/
theorem parse_rejoin_reconstructs (content : List Char)
    (hnod : (markerNames (getBlocks content)).Nodup)
    (hsum : "summary".data ∉ markerNames (getBlocks content)) :
    valsJoin (convert_txt_to_dict content) = keptBlocks (getBlocks content) := by
  have hfresh : ∀ m ∈ markerNames (getBlocks content),
      m ∉ keysOf [("summary".data, ([] : List Block))] ∧ m ≠ "summary".data := by
    intro m hm
    have hne : m ≠ "summary".data := fun hEq => hsum (hEq ▸ hm)
    exact ⟨by simp [hne], hne⟩
  have h := valsJoin_buildChapters (getBlocks content) "summary".data
    [("summary".data, [])] hnod hfresh (by simp) (Or.inr (by simp))
  simpa [convert_txt_to_dict] using h

/-- Witness for C3 at the two-section input of C2. -/
theorem parse_rejoin_reconstructs_witness :
    (markerNames (getBlocks "\x7b-Intro-\x7d\n\nP1.\n\nP2.\n\n\x7b-Ch1-\x7d\n\nP3.".data)).Nodup ∧
      "summary".data ∉
        markerNames (getBlocks "\x7b-Intro-\x7d\n\nP1.\n\nP2.\n\n\x7b-Ch1-\x7d\n\nP3.".data) ∧
      valsJoin (convert_txt_to_dict "\x7b-Intro-\x7d\n\nP1.\n\nP2.\n\n\x7b-Ch1-\x7d\n\nP3.".data) =
        keptBlocks (getBlocks "\x7b-Intro-\x7d\n\nP1.\n\nP2.\n\n\x7b-Ch1-\x7d\n\nP3.".data) :=
  ⟨by decide, by decide,
   parse_rejoin_reconstructs "\x7b-Intro-\x7d\n\nP1.\n\nP2.\n\n\x7b-Ch1-\x7d\n\nP3.".data
     (by decide) (by decide)⟩

/-- C4: add_paragraph_to_last_chapter on a book with no chapters raises the
contract-violation ValueError (modelled as Except.error carrying the
source's message) and produces no updated book, so the book is unchanged;
on a book with at least one chapter it appends the record to the most
recently added chapter's paragraph list. -/
theorem add_paragraph_contract (b : Book) (o t : String) :
    (b.content = [] →
      b.add_paragraph_to_last_chapter o t =
        Except.error "Cannot add paragraph: No chapter has been added to the book yet.") ∧
    (∀ cs c, b.content = cs ++ [c] →
      b.add_paragraph_to_last_chapter o t =
        Except.ok { b with content :=
          cs ++ [{ c with paragraphs := c.paragraphs ++ [⟨o, t⟩] }] }) := by
  constructor
  · intro h
    simp [Book.add_paragraph_to_last_chapter, h]
  · intro cs c h
    exact add_paragraph_to_last_chapter_ok b o t cs c h

/-- Witness for C4: both branches at concrete books. -/
theorem add_paragraph_contract_witness :
    (Book.mk "T" []).add_paragraph_to_last_chapter "o" "t" =
      Except.error "Cannot add paragraph: No chapter has been added to the book yet." ∧
    (Book.mk "T" [⟨"C", []⟩]).add_paragraph_to_last_chapter "o" "t" =
      Except.ok (Book.mk "T" [⟨"C", [⟨"o", "t"⟩]⟩]) :=
  ⟨(add_paragraph_contract (Book.mk "T" []) "o" "t").1 rfl,
   (add_paragraph_contract (Book.mk "T" [⟨"C", []⟩]) "o" "t").2 [] ⟨"C", []⟩ rfl⟩

/-- C5: check_api_key returns True (the invalid signal) exactly when the
probe call raised, and returns False (the valid signal) whenever the probe
returned text, whatever that text is. -/
theorem check_api_key_spec (probe : Except String String) :
    (check_api_key probe = true ↔ ∃ e, probe = Except.error e) ∧
    (∀ t, probe = Except.ok t → check_api_key probe = false) := by
  constructor
  · cases probe with
    | ok t => simp [check_api_key]
    | error e => simp [check_api_key]
  · intro t h
    subst h
    rfl

/-- Witness for C5: a returning probe and a raising probe. -/
theorem check_api_key_spec_witness :
    check_api_key (Except.ok "Hello Gemini") = false ∧
      check_api_key (Except.error "invalid key") = true :=
  ⟨(check_api_key_spec (Except.ok "Hello Gemini")).2 "Hello Gemini" rfl,
   (check_api_key_spec (Except.error "invalid key")).1.mpr ⟨"invalid key", rfl⟩⟩

/-- C6 counterexample: in this input the marker A is first encountered
before the marker B, but section A receives its first kept block only after
B does, so the parse result's keys come out summary, B, A — the non-summary
keys are not in first-encounter order (not even as a subsequence of the
first-encounter order of the marker names). -/
theorem key_order_counterexample :
    keysOf (convert_txt_to_dict
        "\x7b-A-\x7d\n\n\x7b-B-\x7d\n\nPB.\n\n\x7b-A-\x7d\n\nPA.".data) =
      ["summary".data, "B".data, "A".data] ∧
    insertNewKeys [] (markerNames (getBlocks
        "\x7b-A-\x7d\n\n\x7b-B-\x7d\n\nPB.\n\n\x7b-A-\x7d\n\nPA.".data)) =
      ["A".data, "B".data] ∧
    ¬ List.Sublist
        ((keysOf (convert_txt_to_dict
          "\x7b-A-\x7d\n\n\x7b-B-\x7d\n\nPB.\n\n\x7b-A-\x7d\n\nPA.".data)).filter
            (fun k => k ≠ "summary".data))
        (insertNewKeys [] (markerNames (getBlocks
          "\x7b-A-\x7d\n\n\x7b-B-\x7d\n\nPB.\n\n\x7b-A-\x7d\n\nPA.".data))) :=
  ⟨by decide, by decide, by decide⟩

/-- C6 amended: for every input text the mapping's keys are pairwise
distinct, in the order "summary" first and then each further section name in
the order it first receives a kept block (which is the first-encounter order
whenever every marker occurrence is followed by a kept block before the next
marker); the "summary" section collects, as a prefix of its value, every
kept block preceding the first marker. -/
theorem keys_unique_ordered_by_first_kept_block (content : List Char) :
    (keysOf (convert_txt_to_dict content)).Nodup ∧
    keysOf (convert_txt_to_dict content) =
      insertNewKeys ["summary".data]
        (sectionSeq (getBlocks content) "summary".data) ∧
    ∃ s ext, lookupKey (convert_txt_to_dict content) "summary".data = some s ∧
      s = preMarkerKept (getBlocks content) ++ ext := by
  refine ⟨?_, ?_, ?_⟩
  · rw [convert_txt_to_dict, keysOf_buildChapters]
    exact insertNewKeys_nodup _ _ (by simp)
  · rw [convert_txt_to_dict, keysOf_buildChapters]
    simp [keysOf]
  · obtain ⟨ext, hext⟩ :=
      lookupKey_buildChapters_head (getBlocks content) "summary".data [] []
    exact ⟨[] ++ preMarkerKept (getBlocks content) ++ ext, ext, hext, by simp⟩

/-- C7: when the underlying call raises on the first two attempts and
returns t on the 3rd, the paragraph retry loop returns t having made exactly
3 attempts (and 2 sleeps) — no further attempt occurs. -/
theorem retry_third_attempt (call : Nat → Option String) (t : String)
    (h0 : call 0 = none) (h1 : call 1 = none) (h2 : call 2 = some t) :
    retryTranslateBlock call = (t, 3, 2) := by
  refine retryGo_succeeds call "[Translation Failed]" t 2 5 0 (by omega) ?_
    (by simpa using h2)
  intro i hi
  interval_cases i
  · simpa using h0
  · simpa using h1

/-- Witness for C7 at a call succeeding exactly on attempt index 2. -/
theorem retry_third_attempt_witness :
    (fun i => if i = 2 then some "Bonjour" else none) 0 = none ∧
    (fun i => if i = 2 then some "Bonjour" else none) 1 = none ∧
    (fun i => if i = 2 then some "Bonjour" else none) 2 = some "Bonjour" ∧
    retryTranslateBlock (fun i => if i = 2 then some "Bonjour" else none) =
      ("Bonjour", 3, 2) :=
  ⟨rfl, rfl, rfl, retry_third_attempt _ "Bonjour" rfl rfl rfl⟩

/-- C8: deserializing the structured-book JSON document written by
save_book_to_json yields a record whose title equals the in-memory book's
title and whose chapter count and per-chapter paragraph counts match the
in-memory book exactly — indeed the decoded record is the book itself. -/
theorem structured_book_roundtrip (b : Book) :
    ∃ b', decodeBook (save_book_to_json b) = some b' ∧
      b'.title = b.title ∧
      b'.content.length = b.content.length ∧
      b'.content.map (fun c => c.paragraphs.length) =
        b.content.map (fun c => c.paragraphs.length) :=
  ⟨b, decodeBook_save b, rfl, rfl, rfl⟩

/-- C9: the aggregator is append-only — add_chapter appends exactly one
chapter record with the given title and an empty paragraph list, leaving the
book's title and every previously added chapter with its paragraphs
unchanged, and a successful add_paragraph_to_last_chapter leaves the title
and every chapter but the last unchanged. -/
theorem book_append_only (b : Book) (t o tr : String) :
    (b.add_chapter t).title = b.title ∧
    (b.add_chapter t).content = b.content ++ [{ title := t, paragraphs := [] }] ∧
    (∀ cs c b', b.content = cs ++ [c] →
      b.add_paragraph_to_last_chapter o tr = Except.ok b' →
      b'.title = b.title ∧
      b'.content = cs ++ [{ c with paragraphs := c.paragraphs ++ [⟨o, tr⟩] }]) := by
  refine ⟨rfl, rfl, ?_⟩
  intro cs c b' h hok
  rw [add_paragraph_to_last_chapter_ok b o tr cs c h] at hok
  cases hok
  exact ⟨rfl, rfl⟩

/-- Witness for C9 at a two-chapter book. -/
theorem book_append_only_witness :
    ((Book.mk "T" []).add_chapter "C").content = [⟨"C", []⟩] ∧
    (Book.mk "T" [⟨"C", []⟩, ⟨"D", []⟩]).add_paragraph_to_last_chapter "o" "tr" =
      Except.ok (Book.mk "T" [⟨"C", []⟩, ⟨"D", [⟨"o", "tr"⟩]⟩]) ∧
    (Book.mk "T" [⟨"C", []⟩, ⟨"D", [⟨"o", "tr"⟩]⟩]).title =
      (Book.mk "T" [⟨"C", []⟩, ⟨"D", []⟩]).title ∧
    (Book.mk "T" [⟨"C", []⟩, ⟨"D", [⟨"o", "tr"⟩]⟩]).content =
      [⟨"C", []⟩] ++
        [{ (⟨"D", []⟩ : Chapter) with paragraphs := ([] : List Paragraph) ++ [⟨"o", "tr"⟩] }] := by
  have h := (book_append_only (Book.mk "T" [⟨"C", []⟩, ⟨"D", []⟩]) "C" "o" "tr").2.2
    [⟨"C", []⟩] ⟨"D", []⟩ (Book.mk "T" [⟨"C", []⟩, ⟨"D", [⟨"o", "tr"⟩]⟩]) rfl rfl
  exact ⟨rfl, rfl, h.1, h.2⟩

/-- C10: every parse result has "summary" as its first key (possibly mapped
to the empty list); a key other than "summary" exists exactly for the names
that receive at least one kept block, and every non-summary key maps to a
nonempty paragraph list — so a marker followed by no kept block before the
next marker or the end of input contributes no key of its own. -/
theorem summary_first_and_no_empty_sections (content : List Char) :
    (∃ vs rest, convert_txt_to_dict content = ("summary".data, vs) :: rest) ∧
    (∀ k, k ∈ keysOf (convert_txt_to_dict content) ↔
      k = "summary".data ∨ k ∈ sectionSeq (getBlocks content) "summary".data) ∧
    (∀ p ∈ convert_txt_to_dict content, p.1 ≠ "summary".data → p.2 ≠ []) := by
  have hkeys : keysOf (convert_txt_to_dict content) =
      insertNewKeys ["summary".data]
        (sectionSeq (getBlocks content) "summary".data) := by
    rw [convert_txt_to_dict, keysOf_buildChapters]
    congr 1
  refine ⟨?_, ?_, ?_⟩
  · obtain ⟨ext, hext⟩ := insertNewKeys_extends
      (sectionSeq (getBlocks content) "summary".data) ["summary".data]
    rw [hext] at hkeys
    cases hd : convert_txt_to_dict content with
    | nil => rw [hd] at hkeys; simp at hkeys
    | cons p rest =>
      rw [hd] at hkeys
      simp only [keysOf_cons, List.singleton_append] at hkeys
      injection hkeys with hp hrest
      refine ⟨p.2, rest, ?_⟩
      have hps : p = ("summary".data, p.2) := by
        rw [Prod.ext_iff]
        exact ⟨by rw [hp], rfl⟩
      rw [← hps]
  · intro k
    rw [hkeys, mem_insertNewKeys]
    simp
  · intro p hp hne
    rw [convert_txt_to_dict] at hp
    rcases mem_buildChapters _ _ _ p hp with h | h
    · exfalso
      apply hne
      simp only [List.mem_singleton] at h
      rw [h]
    · exact h

/-- Witness for C10: a non-summary entry at a concrete input. -/
theorem summary_first_and_no_empty_sections_witness :
    (("A".data, ["P1.".data]) ∈ convert_txt_to_dict "\x7b-A-\x7d\n\nP1.".data) ∧
    ¬ ("A".data, ["P1.".data]).1 = "summary".data ∧
    ("A".data, ["P1.".data]).2 ≠ [] :=
  ⟨by decide, by decide,
   (summary_first_and_no_empty_sections "\x7b-A-\x7d\n\nP1.".data).2.2
     ("A".data, ["P1.".data]) (by decide) (by decide)⟩

end BookTranslator
